import Mathlib

/-!
# Verification of the blocked-matrix kernels, the NNC sorter, and the
# FPGA solver interface of opm-simulators

Shallow embedding of:
* `opm/simulators/linalg/bda/BlockedMatrix.cpp`
  (`allocateBlockedMatrix`, `freeBlockedMatrix`, `soft_copyBlockedMatrix`,
  `sortBlockedRow`, `blockMultSub`, `blockMult`, `blockInvert3x3`),
* `ebos/nncsorter.cpp` (`sortNncAndApplyEditnnc`),
* the matrix-vector-product contract of
  `opm/simulators/linalg/bda/FPGASolverBackend.hpp`.

C `double` arithmetic is embedded as exact arithmetic over `ℚ`; machine
`int` values are embedded as `ℤ`.  `BLOCK_SIZE` is 3, so a `Block` is a
row-major array of 9 doubles, embedded as `Fin 9 → ℚ`.
-/

namespace OpmBda

/-! ## Blocks: `Block` is `double[BLOCK_SIZE * BLOCK_SIZE]` with `BLOCK_SIZE = 3` -/

/-- A 3×3 block, stored row-major as in the source:
entry (row, col) lives at flat index `3 * row + col`. -/
abbrev Blk := Fin 9 → ℚ

/-- Read a block at a flat C index (`mat[i]`); indices used by the source
are always in bounds, out-of-range reads are given a junk value 0. -/
def bget (m : Blk) (i : ℕ) : ℚ := if h : i < 9 then m ⟨i, h⟩ else 0

/-- Embedding of `blockMultSub` (BlockedMatrix.cpp:101-112): `a = a - (b * c)`.
The C function updates `a` in place; the embedding returns the updated block.
The inner `for (k)` loop accumulating `temp` from `0.0` is the `foldl`. -/
def blockMultSub (a b c : Blk) : Blk := fun p =>
  a p -
    (List.range 3).foldl
      (fun temp k =>
        temp + bget b (3 * ((p : ℕ) / 3) + k) * bget c (3 * k + (p : ℕ) % 3)) 0

/-- Embedding of `blockMult` (BlockedMatrix.cpp:116-126):
`resMat = mat1 * mat2`.  The written entry `resMat[3*row+col]` is expressed
as a function of the flat output index `p`, with `row = p / 3`, `col = p % 3`. -/
def blockMult (mat1 mat2 : Blk) : Blk := fun p =>
  (List.range 3).foldl
    (fun temp k =>
      temp + bget mat1 (3 * ((p : ℕ) / 3) + k) * bget mat2 (3 * k + (p : ℕ) % 3)) 0

/-- The determinant expression computed inline by `blockInvert3x3`
(BlockedMatrix.cpp:133-141), with the Maple temporaries `t4 … t14` expanded
exactly as in the source. -/
def det3 (mat : Blk) : ℚ :=
  (mat 0 * mat 4) * mat 8 - (mat 0 * mat 5) * mat 7 - (mat 1 * mat 3) * mat 8 +
    (mat 2 * mat 3) * mat 7 + (mat 1 * mat 6) * mat 5 - (mat 2 * mat 6) * mat 4

/-- Embedding of `blockInvert3x3` (BlockedMatrix.cpp:131-153).  The C function
unconditionally computes `t17 = 1.0 / det` — there is no singularity test and
no failure branch — and writes the nine adjugate entries scaled by `t17`.
The out-parameter `res` becomes the returned block.  (Over `ℚ` the division
`1 / 0` is the Lean junk value `0`; the IEEE code would produce `inf`/`nan`.
Nothing below depends on the value at `det = 0`, only on the fact that the
function returns normally for every input.) -/
def blockInvert3x3 (mat : Blk) : Blk :=
  let t4 := mat 0 * mat 4
  let t6 := mat 0 * mat 5
  let t8 := mat 1 * mat 3
  let t10 := mat 2 * mat 3
  let t12 := mat 1 * mat 6
  let t14 := mat 2 * mat 6
  let det := t4 * mat 8 - t6 * mat 7 - t8 * mat 8 + t10 * mat 7 + t12 * mat 5 - t14 * mat 4
  let t17 := 1 / det
  ![ (mat 4 * mat 8 - mat 5 * mat 7) * t17,
    -(mat 1 * mat 8 - mat 2 * mat 7) * t17,
     (mat 1 * mat 5 - mat 2 * mat 4) * t17,
    -(mat 3 * mat 8 - mat 5 * mat 6) * t17,
     (mat 0 * mat 8 - t14) * t17,
    -(t6 - t10) * t17,
     (mat 3 * mat 7 - mat 4 * mat 6) * t17,
    -(mat 0 * mat 7 - t12) * t17,
     (t4 - t8) * t17 ]

/-- Modelled from the spec: the NumericBreakdown-signalling inversion the spec
requires ("if the determinant magnitude falls below a small epsilon the
operation signals NumericBreakdown rather than returning a finite but
meaningless inverse"); `none` is the NumericBreakdown signal.  This operation
is absent from the source: `blockInvert3x3` has no such branch. -/
def invertWithBreakdown (ε : ℚ) (mat : Blk) : Option Blk :=
  if |det3 mat| < ε then none else some (blockInvert3x3 mat)

/-- The 3×3 identity block (ones at the diagonal flat indices 0, 4, 8). -/
def idBlk : Blk := fun p =>
  if (p : ℕ) = 0 ∨ (p : ℕ) = 4 ∨ (p : ℕ) = 8 then 1 else 0

/-! ## BlockedMatrix storage: `allocateBlockedMatrix`, `freeBlockedMatrix`,
`soft_copyBlockedMatrix` (BlockedMatrix.cpp:33-63)

The struct holds raw owning pointers to three heap arrays.  Pointers are
embedded as natural-number addresses; the heap maps an address to the
contents of the array allocated there (`none` = not allocated / freed).
`new T[n]` performs default-initialization, so the fresh array contents are
indeterminate: the heap carries "junk" oracles giving the pre-existing
memory contents that a fresh allocation exposes. -/

/-- The `BlockedMatrix` struct: three array pointers plus the two sizes. -/
structure BlockedMatrix where
  nnzValues : ℕ
  colIndices : ℕ
  rowPointers : ℕ
  Nb : ℤ
  nnzbs : ℤ
deriving DecidableEq

/-- The array heap: `next` is the next fresh address, `dstore` the allocated
double arrays, `istore` the allocated int arrays, and `junkD`/`junkI` the
indeterminate contents (address → index → value) that `new T[n]` exposes. -/
structure Heap where
  next : ℕ
  dstore : ℕ → Option (List ℚ)
  istore : ℕ → Option (List ℤ)
  junkD : ℕ → ℕ → ℚ
  junkI : ℕ → ℕ → ℤ

/-- Embedding of `allocateBlockedMatrix(Nb, nnzbs)` (BlockedMatrix.cpp:33-43):
`new Block[nnzbs]`, `new int[nnzbs]`, `new int[Nb+1]` (in that order; a
`Block` is 9 doubles), then the `Nb` and `nnzbs` fields are set.  None of the
three `new T[n]` expressions value-initializes, so each fresh array holds the
junk-oracle contents at its address. -/
def allocateBlockedMatrix (Nb nnzbs : ℤ) (h : Heap) : BlockedMatrix × Heap :=
  let a := h.next
  let mat : BlockedMatrix :=
    { nnzValues := a, colIndices := a + 1, rowPointers := a + 2, Nb := Nb, nnzbs := nnzbs }
  let h' : Heap :=
    { h with
      next := a + 3
      dstore := fun p =>
        if p = a then some ((List.range (nnzbs.toNat * 9)).map (h.junkD a)) else h.dstore p
      istore := fun p =>
        if p = a + 1 then some ((List.range nnzbs.toNat).map (h.junkI (a + 1)))
        else if p = a + 2 then some ((List.range (Nb + 1).toNat).map (h.junkI (a + 2)))
        else h.istore p }
  (mat, h')

/-- Embedding of `freeBlockedMatrix(BlockedMatrix **mat)`
(BlockedMatrix.cpp:45-53).  The double pointer becomes an
`Option BlockedMatrix` handle: `if (*mat)` is the `match`; on a live handle
the three arrays are `delete[]`d and the handle is nulled, on a null handle
nothing happens. -/
def freeBlockedMatrix (handle : Option BlockedMatrix) (h : Heap) :
    Option BlockedMatrix × Heap :=
  match handle with
  | none => (none, h)
  | some m =>
    (none,
      { h with
        dstore := fun p => if p = m.nnzValues then none else h.dstore p
        istore := fun p =>
          if p = m.colIndices ∨ p = m.rowPointers then none else h.istore p })

/-- Embedding of `soft_copyBlockedMatrix` (BlockedMatrix.cpp:55-63): all five
fields are copied; no array is allocated or copied, so the heap is untouched.
(The `new BlockedMatrix()` for the struct itself is the returned record
value; the array heap is unchanged.) -/
def soft_copyBlockedMatrix (mat : BlockedMatrix) (h : Heap) : BlockedMatrix × Heap :=
  ({ nnzValues := mat.nnzValues, colIndices := mat.colIndices,
     rowPointers := mat.rowPointers, Nb := mat.Nb, nnzbs := mat.nnzbs }, h)

/-- A heap with nothing allocated and all-zero junk, used for witnesses. -/
def heap0 : Heap :=
  { next := 0, dstore := fun _ => none, istore := fun _ => none,
    junkD := fun _ _ => 0, junkI := fun _ _ => 0 }

/-- A heap whose indeterminate memory contents are all ones: `new` on this
heap exposes arrays filled with 1. -/
def heapJ : Heap :=
  { next := 0, dstore := fun _ => none, istore := fun _ => none,
    junkD := fun _ _ => 1, junkI := fun _ _ => 1 }

/-! ## The matrix-vector product of the backend solve loop
(FPGASolverBackend.hpp:256-267)

The body of `FpgaSolverBackend::solve_system` is not part of this source
tree; only its declaration and documentation are (FPGASolverBackend.hpp).
The relevant contract is modelled from the spec and from that header:
the spec says each BICGSTAB iteration computes its matrix-vector product as
`sparseProduct(x) + wellContributions.apply(x)`, while the header documents
the `wellContribs` parameter of the FPGA backend as "not used in FPGA solver
because it requires them already added to matrix A".  Matrices are modelled
by the linear maps they compute. -/

/-- Modelled from the spec: the sparse matrix-vector product
`sparseProduct(x)` of the native matrix, abstracted from its block-CSR
layout to the linear map it computes. -/
def sparseProduct (n : ℕ) (A : Fin n → Fin n → ℚ) (x : Fin n → ℚ) : Fin n → ℚ :=
  fun i => ∑ j, A i j * x j

/-- Modelled from the spec: `wellContributions.apply(x)`, the additive
low-rank well term, given by the matrix `W` of the equations outside the
native sparsity pattern. -/
def applyWellContributions (n : ℕ) (W : Fin n → Fin n → ℚ) (x : Fin n → ℚ) :
    Fin n → ℚ :=
  fun i => ∑ j, W i j * x j

/-- Modelled from the spec: the matrix-vector product each BICGSTAB
iteration is required to compute, `sparseProduct(x) + wellContributions.apply(x)`. -/
def specMatVec (n : ℕ) (A W : Fin n → Fin n → ℚ) (x : Fin n → ℚ) : Fin n → ℚ :=
  fun i => sparseProduct n A x i + applyWellContributions n W x i

/-- Modelled from the spec and from FPGASolverBackend.hpp:264: the
matrix-vector product the FPGA backend actually computes in its solve; the
`wellContribs` argument is "not used in FPGA solver because it requires them
already added to matrix A", so only the native sparse product is applied. -/
def fpgaMatVec (n : ℕ) (A _W : Fin n → Fin n → ℚ) (x : Fin n → ℚ) : Fin n → ℚ :=
  fun i => sparseProduct n A x i

end OpmBda

namespace Ewoms

/-! ## `sortNncAndApplyEditnnc` (ebos/nncsorter.cpp:33-78)

`Opm::NNCdata` is a (cell1, cell2, trans) record; `std::vector` iterators
become list indices, with the past-the-end iterator `nncData.end()` being
the index `nncData.length`.  Dereferencing the past-the-end iterator is
undefined behaviour; the embedding returns `none` there.  `std::sort` with
the strict weak order `nncLess` may produce any reordering that is sorted
for `nncLess`; it is embedded as an insertion sort for the reflexive
closure of `nncLess`.  `std::lower_bound` over the sorted tail returns the
first position in `[candidate, end)` whose element is not `nncLess` the
searched value; it is embedded as `findIdx` on the dropped prefix. -/

/-- `Opm::NNCdata`: two cell indices (`size_t`) and a transmissibility
(`double`, embedded as `ℚ`). -/
structure NNCdata where
  cell1 : ℕ
  cell2 : ℕ
  trans : ℚ
deriving DecidableEq

/-- The comparator `nncLess` (nncsorter.cpp:36-41): lexicographic strict
order on (cell1, cell2). -/
def nncLess (d1 d2 : NNCdata) : Bool :=
  d1.cell1 < d2.cell1 || (d1.cell1 == d2.cell1 && d1.cell2 < d2.cell2)

/-- The sorted-order relation induced by `nncLess` (the order `std::sort`
establishes): `d1` does not come strictly after `d2`. -/
def nncLe (d1 d2 : NNCdata) : Prop := nncLess d2 d1 = false

instance : DecidableRel nncLe := fun d1 d2 => by unfold nncLe; infer_instance

/-- Whether an NNC entry `d` has the same (cell1, cell2) pair as the edit
`e` (the match test of nncsorter.cpp:58 and 67-69). -/
def pairEq (e d : NNCdata) : Bool := d.cell1 == e.cell1 && d.cell2 == e.cell2

/-- `std::lower_bound(candidate, end, NNCdata(edit.cell1, edit.cell2, 0),
nncLess)` (nncsorter.cpp:59): the first index `≥ c` whose entry is not
`nncLess` than `e`; `l.length` when there is none. -/
def lowerBoundFrom (l : List NNCdata) (c : ℕ) (e : NNCdata) : ℕ :=
  c + (l.drop c).findIdx (fun d => !nncLess d e)

/-- The `while` loop of nncsorter.cpp:67-73: starting at index `c`, multiply
the `trans` of each consecutive entry whose (cell1, cell2) pair equals the
edit's by `edit.trans`, advancing the candidate; returns the updated list
and the final candidate index. -/
def applyRun (l : List NNCdata) (e : NNCdata) (c : ℕ) : List NNCdata × ℕ :=
  if h : c < l.length then
    let d := l.get ⟨c, h⟩
    if pairEq e d then
      applyRun (l.set c { d with trans := d.trans * e.trans }) e (c + 1)
    else (l, c)
  else (l, c)
termination_by l.length - c
decreasing_by simp only [List.length_set]; omega

/-- One iteration of the `for (edit : editnncData)` loop
(nncsorter.cpp:45-77) on state (current nnc list, candidate index):
* if the candidate is at the end and `log` is set, warn and `continue`;
* otherwise the candidate is dereferenced — undefined behaviour (`none`)
  if it is past the end;
* on a pair mismatch re-seat the candidate with `lower_bound`, and if it
  is then at the end and `log` is set, warn and `continue`;
* run the multiply loop from the candidate, and leave the candidate at the
  first match position (`firstCandidate`) for the next edit. -/
def editStep (log : Bool) (l : List NNCdata) (c : ℕ) (e : NNCdata) :
    Option (List NNCdata × ℕ) :=
  if c = l.length ∧ log then some (l, c)
  else
    match l[c]? with
    | none => none
    | some d =>
      let c1 := if pairEq e d then c else lowerBoundFrom l c e
      if c1 = l.length ∧ log then some (l, c1)
      else some ((applyRun l e c1).1, c1)

/-- Embedding of `sortNncAndApplyEditnnc` (nncsorter.cpp:33-78): sort
`nncData` by `nncLess`, then walk `editnncData` with the candidate cursor.
`none` means the run dereferenced the past-the-end iterator. -/
def sortNncAndApplyEditnnc (nncData editnncData : List NNCdata) (log : Bool) :
    Option (List NNCdata) :=
  let sorted := List.insertionSort nncLe nncData
  (editnncData.foldl
      (fun st e => st.bind fun p => editStep log p.1 p.2 e)
      (some (sorted, 0))).map Prod.fst

/-- The transmissibility factor the claim assigns to an entry `d`: the
product of `edit.trans` over every edit whose (cell1, cell2) pair equals
`d`'s, one factor per matching edit occurrence. -/
def editProd (edits : List NNCdata) (d : NNCdata) : ℚ :=
  ((edits.filter (fun e => pairEq e d)).map NNCdata.trans).prod

/-- Apply every matching edit of `edits` to every entry of `l`, entrywise:
cells unchanged, `trans` multiplied by `editProd`. -/
def applyEditsSpec (edits : List NNCdata) (l : List NNCdata) : List NNCdata :=
  l.map fun d => { d with trans := d.trans * editProd edits d }

end Ewoms

namespace OpmBda

/-! ## `sortBlockedRow` (BlockedMatrix.cpp:68-96)

The two parallel arrays `colIndices` (ints) and `data` (blocks, swapped by
whole-block `memcpy` exactly in step with the column swaps) are embedded as
one array of (column, block) pairs; array contents are a total function
from the `int` position to the pair, the sort touching only `[left, right]`.
The recursive partition-exchange sort can diverge on inputs that violate
its preconditions (the scan loops have no bounds check), so every loop gets
an explicit fuel budget, `none` meaning the budget was exhausted; the
theorems show a fuel of the sub-range length plus one always suffices. -/

/-- Swap the entries at positions `i` and `j`
(the three-way exchange of colIndices and the two `memcpy`-pair swaps of
blocks, BlockedMatrix.cpp:79-84). -/
def swapEntries {β : Type} (f : ℤ → ℤ × β) (i j : ℤ) : ℤ → ℤ × β :=
  fun k => if k = i then f j else if k = j then f i else f k

/-- The scan `while (colIndices[l] < middle) l++;` (BlockedMatrix.cpp:74-75),
returning the stopping position, with fuel counting the positions examined. -/
def scanL {β : Type} (f : ℤ → ℤ × β) (middle : ℤ) : ℕ → ℤ → Option ℤ
  | 0, _ => none
  | fuel + 1, l => if (f l).1 < middle then scanL f middle fuel (l + 1) else some l

/-- The scan `while (colIndices[r] > middle) r--;` (BlockedMatrix.cpp:76-77). -/
def scanR {β : Type} (f : ℤ → ℤ × β) (middle : ℤ) : ℕ → ℤ → Option ℤ
  | 0, _ => none
  | fuel + 1, r => if middle < (f r).1 then scanR f middle fuel (r - 1) else some r

/-- The partition `do { … } while (l < r);` (BlockedMatrix.cpp:73-89): scan
from both ends, and if the scans have not crossed (`l <= r`), swap and
advance both cursors; repeat while `l < r`.  Returns the final array and
the final cursor pair.  Each scan's fuel covers the whole current window
plus the sentinel positions just outside it. -/
def partitionLoop {β : Type} (middle : ℤ) :
    ℕ → (ℤ → ℤ × β) → ℤ → ℤ → Option ((ℤ → ℤ × β) × ℤ × ℤ)
  | 0, _, _, _ => none
  | fuel + 1, f, l, r =>
    match scanL f middle ((r - l).toNat + 2) l with
    | none => none
    | some l1 =>
      match scanR f middle ((r - l).toNat + 2) r with
      | none => none
      | some r1 =>
        if l1 ≤ r1 then
          if l1 + 1 < r1 - 1 then
            partitionLoop middle fuel (swapEntries f l1 r1) (l1 + 1) (r1 - 1)
          else some (swapEntries f l1 r1, l1 + 1, r1 - 1)
        else some (f, l1, r1)

/-- Embedding of `sortBlockedRow(colIndices, data, left, right)`
(BlockedMatrix.cpp:68-96): pick the pivot value at the middle position
(`(l + r) >> 1`), partition, then recurse on `[left, r]` when `left < r`
and on `[l, right]` when `right > l`.  `fuel` bounds the recursion depth. -/
def sortBlockedRow {β : Type} : ℕ → (ℤ → ℤ × β) → ℤ → ℤ → Option (ℤ → ℤ × β)
  | 0, _, _, _ => none
  | fuel + 1, f, left, right =>
    let middle := (f ((left + right) / 2)).1
    match partitionLoop middle ((right - left).toNat + 1) f left right with
    | none => none
    | some (f1, l, r) =>
      match (if left < r then sortBlockedRow fuel f1 left r else some f1) with
      | none => none
      | some f2 => if l < right then sortBlockedRow fuel f2 l right else some f2

/-- The column indices of the row entries at positions `a, a+1, …, b`, as a
list (used to state the distinct-columns precondition and the permutation
conclusion decidably). -/
def colsOn {β : Type} (f : ℤ → ℤ × β) (a b : ℤ) : List ℤ :=
  (List.range ((b - a).toNat + 1)).map fun k : ℕ => (f (a + (k : ℤ))).1

/-- `g` is `f` with the positions of `[a, b]` permuted: a bijection of
positions fixing everything outside `[a, b]` carries `f` to `g` — the
(column, block) pairs of the sub-range are rearranged as whole pairs and
nothing else moves. -/
def PermOn {β : Type} (f g : ℤ → ℤ × β) (a b : ℤ) : Prop :=
  ∃ π : Equiv.Perm ℤ, (∀ k, k < a ∨ b < k → π k = k) ∧ ∀ k, g k = f (π k)

/-- A sample allocation, used in witnesses. -/
def allocEx : BlockedMatrix × Heap := allocateBlockedMatrix 1 1 heap0

end OpmBda

/-! # Theorems -/

namespace OpmBda

theorem range3_eq : List.range 3 = [0, 1, 2] := rfl

theorem blk_mk0 (M : Blk) (h : 0 < 9) : M ⟨0, h⟩ = M 0 := rfl

theorem blk_mk1 (M : Blk) (h : 1 < 9) : M ⟨1, h⟩ = M 1 := rfl

theorem blk_mk2 (M : Blk) (h : 2 < 9) : M ⟨2, h⟩ = M 2 := rfl

theorem blk_mk3 (M : Blk) (h : 3 < 9) : M ⟨3, h⟩ = M 3 := rfl

theorem blk_mk4 (M : Blk) (h : 4 < 9) : M ⟨4, h⟩ = M 4 := rfl

theorem blk_mk5 (M : Blk) (h : 5 < 9) : M ⟨5, h⟩ = M 5 := rfl

theorem blk_mk6 (M : Blk) (h : 6 < 9) : M ⟨6, h⟩ = M 6 := rfl

theorem blk_mk7 (M : Blk) (h : 7 < 9) : M ⟨7, h⟩ = M 7 := rfl

theorem blk_mk8 (M : Blk) (h : 8 < 9) : M ⟨8, h⟩ = M 8 := rfl

theorem fin9_val_mk (n : ℕ) (h : n < 9) : ((⟨n, h⟩ : Fin 9) : ℕ) = n := rfl

theorem fin9_val0 : ((0 : Fin 9) : ℕ) = 0 := rfl

theorem fin9_val1 : ((1 : Fin 9) : ℕ) = 1 := rfl

theorem fin9_val2 : ((2 : Fin 9) : ℕ) = 2 := rfl

theorem fin9_val3 : ((3 : Fin 9) : ℕ) = 3 := rfl

theorem fin9_val4 : ((4 : Fin 9) : ℕ) = 4 := rfl

theorem fin9_val5 : ((5 : Fin 9) : ℕ) = 5 := rfl

theorem fin9_val6 : ((6 : Fin 9) : ℕ) = 6 := rfl

theorem fin9_val7 : ((7 : Fin 9) : ℕ) = 7 := rfl

theorem fin9_val8 : ((8 : Fin 9) : ℕ) = 8 := rfl

/-- C7: for all 3×3 blocks A, B, C, `blockMultSub A B C` updates A to
`A - B·C` entrywise: entry (row, col) of the result equals the old
`A[row][col]` minus `∑ k, B[row][k] * C[k][col]`; equivalently the result
is the old `A` minus `blockMult B C`. -/
theorem blockMultSub_is_sub_blockMult (a b c : Blk) :
    (∀ r c' : Fin 3,
        blockMultSub a b c ⟨3 * r.val + c'.val, by omega⟩ =
          a ⟨3 * r.val + c'.val, by omega⟩ -
            ∑ k : Fin 3,
              b ⟨3 * r.val + k.val, by omega⟩ * c ⟨3 * k.val + c'.val, by omega⟩) ∧
    blockMultSub a b c = fun p => a p - blockMult b c p := by
  constructor
  · intro r c'
    fin_cases r <;> fin_cases c' <;>
      · simp only [blockMultSub, bget, range3_eq, List.foldl_cons, List.foldl_nil,
          Fin.sum_univ_three]
        norm_num
  · funext p
    rfl

set_option maxHeartbeats 1600000 in
/-- C8: for every 3×3 block M with nonzero determinant,
`multiply(invert(M), M)` is exactly the 3×3 identity block (the claim's
exact-arithmetic reading; the embedding uses exact rationals). -/
theorem blockMult_blockInvert3x3_eq_id (M : Blk) (h : det3 M ≠ 0) :
    blockMult (blockInvert3x3 M) M = idBlk := by
  have hd : det3 M ≠ 0 := h
  funext p
  rw [det3] at hd
  fin_cases p <;>
    · simp only [blockMult, blockInvert3x3, bget, idBlk, range3_eq,
        List.foldl_cons, List.foldl_nil]
      norm_num [fin9_val_mk, fin9_val0, fin9_val1, fin9_val2, fin9_val3,
        fin9_val4, fin9_val5, fin9_val6, fin9_val7, fin9_val8]
      simp only [blk_mk0, blk_mk1, blk_mk2, blk_mk3, blk_mk4, blk_mk5,
        blk_mk6, blk_mk7, blk_mk8]
      field_simp
      ring

/-- Witness for C8 at the identity block. -/
theorem blockMult_blockInvert3x3_eq_id_witness :
    det3 idBlk ≠ 0 ∧ blockMult (blockInvert3x3 idBlk) idBlk = idBlk :=
  ⟨by norm_num [det3, idBlk, fin9_val0, fin9_val1, fin9_val2, fin9_val3,
      fin9_val4, fin9_val5, fin9_val6, fin9_val7, fin9_val8],
    blockMult_blockInvert3x3_eq_id idBlk
      (by norm_num [det3, idBlk, fin9_val0, fin9_val1, fin9_val2, fin9_val3,
        fin9_val4, fin9_val5, fin9_val6, fin9_val7, fin9_val8])⟩

/-- C1 counterexample: there is no positive ε for which the source's block
inversion behaves like the NumericBreakdown-signalling inversion — the zero
block has determinant magnitude below every ε, yet `blockInvert3x3` still
divides by the determinant and returns a block rather than signalling. -/
theorem blockInvert3x3_no_breakdown_cex :
    ¬ ∃ ε : ℚ, 0 < ε ∧
        ∀ M : Blk, some (blockInvert3x3 M) = invertWithBreakdown ε M := by
  rintro ⟨ε, hε, h⟩
  have h0 := h (fun _ => 0)
  have hd : det3 (fun _ => (0 : ℚ)) = 0 := by norm_num [det3]
  rw [invertWithBreakdown, hd] at h0
  simp [hε] at h0

/-- C1 amended: the source's block inversion is epsilon-free: it performs
the determinant division unconditionally, so it coincides with the checked
inversion at threshold ε = 0 (which never signals) on every block,
singular blocks included. -/
theorem blockInvert3x3_epsilon_free (M : Blk) :
    invertWithBreakdown 0 M = some (blockInvert3x3 M) := by
  rw [invertWithBreakdown, if_neg]
  exact not_lt.mpr (abs_nonneg _)

/-- C4 counterexample: allocation does not zero-fill.  On a heap whose
indeterminate memory contents are ones, `allocateBlockedMatrix 1 1` returns
a values array of nine ones, a colIndices array `[1]` and a rowPointers
array `[1, 1]` — none of them zero-filled. -/
theorem allocateBlockedMatrix_not_zero_filled_cex :
    (allocateBlockedMatrix 1 1 heapJ).2.dstore
        (allocateBlockedMatrix 1 1 heapJ).1.nnzValues ≠
      some (List.replicate 9 (0 : ℚ)) ∧
    (allocateBlockedMatrix 1 1 heapJ).2.istore
        (allocateBlockedMatrix 1 1 heapJ).1.colIndices ≠
      some (List.replicate 1 (0 : ℤ)) ∧
    (allocateBlockedMatrix 1 1 heapJ).2.istore
        (allocateBlockedMatrix 1 1 heapJ).1.rowPointers ≠
      some (List.replicate 2 (0 : ℤ)) := by
  refine ⟨?_, ?_, ?_⟩ <;>
    simp [allocateBlockedMatrix, heapJ,
      show List.range 9 = [0, 1, 2, 3, 4, 5, 6, 7, 8] from rfl,
      show List.range 1 = [0] from rfl, show List.range 2 = [0, 1] from rfl,
      List.replicate]

/-- C4 amended: for every Nb ≥ 0, nnzb ≥ 0 and heap, allocation returns a
matrix whose three arrays have the claimed lengths — nnzb·3·3 values, nnzb
colIndices, Nb+1 rowPointers — with the `Nb` and `nnzbs` fields set; the
array contents are the indeterminate values `new T[n]` exposes, not
zero-filled storage. -/
theorem allocateBlockedMatrix_shape (Nb nnzbs : ℤ) (h : Heap)
    (hNb : 0 ≤ Nb) (_hnnz : 0 ≤ nnzbs) :
    ∃ v ci rp,
      (allocateBlockedMatrix Nb nnzbs h).2.dstore
          (allocateBlockedMatrix Nb nnzbs h).1.nnzValues = some v ∧
        v.length = nnzbs.toNat * 9 ∧
      (allocateBlockedMatrix Nb nnzbs h).2.istore
          (allocateBlockedMatrix Nb nnzbs h).1.colIndices = some ci ∧
        ci.length = nnzbs.toNat ∧
      (allocateBlockedMatrix Nb nnzbs h).2.istore
          (allocateBlockedMatrix Nb nnzbs h).1.rowPointers = some rp ∧
        rp.length = Nb.toNat + 1 ∧
      (allocateBlockedMatrix Nb nnzbs h).1.Nb = Nb ∧
      (allocateBlockedMatrix Nb nnzbs h).1.nnzbs = nnzbs := by
  have e1 : (allocateBlockedMatrix Nb nnzbs h).2.dstore
      (allocateBlockedMatrix Nb nnzbs h).1.nnzValues =
        some ((List.range (nnzbs.toNat * 9)).map (h.junkD h.next)) := by
    simp [allocateBlockedMatrix]
  have e2 : (allocateBlockedMatrix Nb nnzbs h).2.istore
      (allocateBlockedMatrix Nb nnzbs h).1.colIndices =
        some ((List.range nnzbs.toNat).map (h.junkI (h.next + 1))) := by
    simp [allocateBlockedMatrix]
  have e3 : (allocateBlockedMatrix Nb nnzbs h).2.istore
      (allocateBlockedMatrix Nb nnzbs h).1.rowPointers =
        some ((List.range (Nb + 1).toNat).map (h.junkI (h.next + 2))) := by
    simp only [allocateBlockedMatrix]
    rw [if_neg (by omega)]
    simp
  refine ⟨_, _, _, e1, by simp, e2, by simp, e3, ?_, rfl, rfl⟩
  simp only [List.length_map, List.length_range]
  omega

/-- Witness for C4 (amended) at Nb = 1, nnzbs = 1 on the empty heap. -/
theorem allocateBlockedMatrix_shape_witness :
    (0 : ℤ) ≤ 1 ∧ (0 : ℤ) ≤ 1 ∧
      ∃ v ci rp,
        allocEx.2.dstore allocEx.1.nnzValues = some v ∧
          v.length = (1 : ℤ).toNat * 9 ∧
        allocEx.2.istore allocEx.1.colIndices = some ci ∧
          ci.length = (1 : ℤ).toNat ∧
        allocEx.2.istore allocEx.1.rowPointers = some rp ∧
          rp.length = (1 : ℤ).toNat + 1 ∧
        allocEx.1.Nb = 1 ∧ allocEx.1.nnzbs = 1 :=
  ⟨by decide, by decide,
    allocateBlockedMatrix_shape 1 1 heap0 (by decide) (by decide)⟩

/-- C5: a soft copy shares all three array pointers and both sizes with its
source and allocates no array storage (the array heap is unchanged), so
long as the source's arrays are live (not freed). -/
theorem soft_copyBlockedMatrix_aliases (mat : BlockedMatrix) (h : Heap)
    (_hv : (h.dstore mat.nnzValues).isSome = true)
    (_hc : (h.istore mat.colIndices).isSome = true)
    (_hr : (h.istore mat.rowPointers).isSome = true) :
    (soft_copyBlockedMatrix mat h).1.nnzValues = mat.nnzValues ∧
    (soft_copyBlockedMatrix mat h).1.colIndices = mat.colIndices ∧
    (soft_copyBlockedMatrix mat h).1.rowPointers = mat.rowPointers ∧
    (soft_copyBlockedMatrix mat h).1.Nb = mat.Nb ∧
    (soft_copyBlockedMatrix mat h).1.nnzbs = mat.nnzbs ∧
    (soft_copyBlockedMatrix mat h).2 = h :=
  ⟨rfl, rfl, rfl, rfl, rfl, rfl⟩

/-- Witness for C5 on a freshly allocated (hence live) matrix. -/
theorem soft_copyBlockedMatrix_aliases_witness :
    ((allocEx.2.dstore allocEx.1.nnzValues).isSome = true ∧
      (allocEx.2.istore allocEx.1.colIndices).isSome = true ∧
      (allocEx.2.istore allocEx.1.rowPointers).isSome = true) ∧
    ((soft_copyBlockedMatrix allocEx.1 allocEx.2).1.nnzValues = allocEx.1.nnzValues ∧
      (soft_copyBlockedMatrix allocEx.1 allocEx.2).1.colIndices = allocEx.1.colIndices ∧
      (soft_copyBlockedMatrix allocEx.1 allocEx.2).1.rowPointers = allocEx.1.rowPointers ∧
      (soft_copyBlockedMatrix allocEx.1 allocEx.2).1.Nb = allocEx.1.Nb ∧
      (soft_copyBlockedMatrix allocEx.1 allocEx.2).1.nnzbs = allocEx.1.nnzbs ∧
      (soft_copyBlockedMatrix allocEx.1 allocEx.2).2 = allocEx.2) :=
  ⟨⟨by decide, by decide, by decide⟩,
    soft_copyBlockedMatrix_aliases allocEx.1 allocEx.2
      (by decide) (by decide) (by decide)⟩

/-- C6: freeing a live blocked matrix releases all three arrays and nulls
the handle, and a second `freeBlockedMatrix` on the now-null handle is a
no-op (it changes neither the handle nor the heap) rather than a second
release. -/
theorem freeBlockedMatrix_releases_and_idempotent (m : BlockedMatrix) (h : Heap) :
    (freeBlockedMatrix (some m) h).1 = none ∧
    (freeBlockedMatrix (some m) h).2.dstore m.nnzValues = none ∧
    (freeBlockedMatrix (some m) h).2.istore m.colIndices = none ∧
    (freeBlockedMatrix (some m) h).2.istore m.rowPointers = none ∧
    freeBlockedMatrix (freeBlockedMatrix (some m) h).1 (freeBlockedMatrix (some m) h).2 =
      ((freeBlockedMatrix (some m) h).1, (freeBlockedMatrix (some m) h).2) := by
  refine ⟨rfl, ?_, ?_, ?_, rfl⟩ <;> simp [freeBlockedMatrix]

/-- C3 counterexample: on a concrete 1×1 system whose well contribution is
nonzero, the FPGA backend's matrix-vector product is not
`sparseProduct(x) + wellContributions.apply(x)`: the `wellContribs`
argument passed to its `solve_system` is not applied. -/
theorem fpgaMatVec_ignores_wellContribs_cex :
    fpgaMatVec 1 (fun _ _ => 0) (fun _ _ => 1) (fun _ => 1) ≠
      specMatVec 1 (fun _ _ => 0) (fun _ _ => 1) (fun _ => 1) := by
  intro hEq
  have h := congrFun hEq 0
  simp [fpgaMatVec, specMatVec, sparseProduct, applyWellContributions] at h

/-- C3 amended: the FPGA backend's matrix-vector product is the sparse
product alone — it requires the well contributions already added to the
matrix A, and with them pre-added it computes exactly the spec's
`sparseProduct(x) + wellContributions.apply(x)` of the original system. -/
theorem fpgaMatVec_wellContribs_preAdded (n : ℕ) (A W : Fin n → Fin n → ℚ)
    (x : Fin n → ℚ) :
    fpgaMatVec n (fun i j => A i j + W i j) W x = specMatVec n A W x := by
  funext i
  simp [fpgaMatVec, specMatVec, sparseProduct, applyWellContributions,
    add_mul, Finset.sum_add_distrib]

end OpmBda

namespace Ewoms

theorem nncLess_iff (d1 d2 : NNCdata) :
    nncLess d1 d2 = true ↔
      d1.cell1 < d2.cell1 ∨ (d1.cell1 = d2.cell1 ∧ d1.cell2 < d2.cell2) := by
  simp only [nncLess, Bool.or_eq_true, Bool.and_eq_true, decide_eq_true_eq,
    beq_iff_eq]

theorem nncLess_eq_false_iff (d1 d2 : NNCdata) :
    nncLess d1 d2 = false ↔
      d2.cell1 < d1.cell1 ∨ (d1.cell1 = d2.cell1 ∧ d2.cell2 ≤ d1.cell2) := by
  rw [← Bool.not_eq_true, nncLess_iff]
  omega

theorem nncLe_iff (d1 d2 : NNCdata) :
    nncLe d1 d2 ↔
      d1.cell1 < d2.cell1 ∨ (d1.cell1 = d2.cell1 ∧ d1.cell2 ≤ d2.cell2) := by
  rw [nncLe, nncLess_eq_false_iff]
  omega

instance : IsTotal NNCdata nncLe := by
  constructor
  intro a b
  simp only [nncLe_iff]
  omega

instance : IsTrans NNCdata nncLe := by
  constructor
  intro a b c
  simp only [nncLe_iff]
  omega

theorem pairEq_iff (e d : NNCdata) :
    pairEq e d = true ↔ d.cell1 = e.cell1 ∧ d.cell2 = e.cell2 := by
  simp only [pairEq, Bool.and_eq_true, beq_iff_eq]

/-- `nncLess`, `nncLe` and `pairEq` only inspect the cells, never `trans`. -/
theorem pairEq_trans_update (e d : NNCdata) (x : ℚ) :
    pairEq e { d with trans := x } = pairEq e d := rfl

theorem nncLess_trans_update_left (d1 d2 : NNCdata) (x : ℚ) :
    nncLess { d1 with trans := x } d2 = nncLess d1 d2 := rfl

theorem nncLe_trans_update (d1 d2 : NNCdata) (x y : ℚ) :
    nncLe { d1 with trans := x } { d2 with trans := y } ↔ nncLe d1 d2 :=
  Iff.rfl

theorem editProd_nil (d : NNCdata) : editProd [] d = 1 := rfl

theorem applyEditsSpec_nil (l : List NNCdata) : applyEditsSpec [] l = l := by
  unfold applyEditsSpec
  rw [List.map_congr_left, List.map_id]
  intro d _
  rw [editProd_nil, mul_one]
  rfl

/-- `editProd` only inspects the cells of its entry argument. -/
theorem editProd_trans_update (E : List NNCdata) (d : NNCdata) (x : ℚ) :
    editProd E { d with trans := x } = editProd E d := rfl

theorem editProd_cons (e : NNCdata) (E : List NNCdata) (d : NNCdata) :
    editProd (e :: E) d =
      (if pairEq e d then e.trans else 1) * editProd E d := by
  unfold editProd
  rw [List.filter_cons]
  split
  · rw [List.map_cons, List.prod_cons]
  · rw [one_mul]

/-- Applying edits one at a time agrees with applying them all at once. -/
theorem applyEditsSpec_cons (e : NNCdata) (E : List NNCdata) (l : List NNCdata) :
    applyEditsSpec (e :: E) l = applyEditsSpec E (applyEditsSpec [e] l) := by
  unfold applyEditsSpec
  rw [List.map_map]
  apply List.map_congr_left
  intro d _
  simp only [Function.comp_apply, editProd_trans_update, editProd_cons,
    editProd_nil, mul_one]
  cases d
  simp only [NNCdata.mk.injEq, true_and]
  ring

theorem applyEditsSpec_length (E : List NNCdata) (l : List NNCdata) :
    (applyEditsSpec E l).length = l.length := by
  unfold applyEditsSpec
  rw [List.length_map]

theorem applyEditsSpec_getElem (E : List NNCdata) (l : List NNCdata) (i : ℕ)
    (hil : i < l.length) (hi : i < (applyEditsSpec E l).length) :
    (applyEditsSpec E l)[i] =
      { l[i] with trans := l[i].trans * editProd E l[i] } := by
  unfold applyEditsSpec
  rw [List.getElem_map]

/-- The spec map does nothing on a list with no matching entry. -/
theorem applyEditsSpec_single_of_no_match (e : NNCdata) (l : List NNCdata)
    (h : ∀ d ∈ l, pairEq e d = false) : applyEditsSpec [e] l = l := by
  unfold applyEditsSpec
  rw [List.map_congr_left, List.map_id]
  intro d hd
  rw [editProd_cons, editProd_nil, h d hd]
  simp only [Bool.false_eq_true, if_false, one_mul, mul_one]
  rfl

/-- The spec map preserves sortedness (it only rescales `trans`). -/
theorem applyEditsSpec_pairwise (E : List NNCdata) (l : List NNCdata)
    (h : List.Pairwise nncLe l) : List.Pairwise nncLe (applyEditsSpec E l) := by
  unfold applyEditsSpec
  rw [List.pairwise_map]
  exact h

theorem lowerBoundFrom_ge (l : List NNCdata) (c : ℕ) (e : NNCdata) :
    c ≤ lowerBoundFrom l c e :=
  Nat.le_add_right _ _

theorem lowerBoundFrom_le_length (l : List NNCdata) (c : ℕ) (e : NNCdata)
    (hc : c ≤ l.length) : lowerBoundFrom l c e ≤ l.length := by
  unfold lowerBoundFrom
  have h := @List.findIdx_le_length _ (fun d => !nncLess d e) (l.drop c)
  rw [List.length_drop] at h
  omega

/-- Every position the `lower_bound` passes over is strictly below the
searched value. -/
theorem lowerBoundFrom_scanned (l : List NNCdata) (c : ℕ) (e : NNCdata)
    (i : ℕ) (hci : c ≤ i) (hi : i < lowerBoundFrom l c e) (hil : i < l.length) :
    nncLess l[i] e = true := by
  unfold lowerBoundFrom at hi
  have h2 : i - c < (l.drop c).findIdx (fun d => !nncLess d e) := by omega
  have h3 := List.not_of_lt_findIdx h2
  have h4 : i - c < (l.drop c).length := by
    rw [List.length_drop]; omega
  rw [List.getElem_drop] at h3
  simp only [Bool.not_eq_false'] at h3
  simp only [Nat.add_sub_cancel' hci] at h3
  exact h3

/-- The position the `lower_bound` stops at (when not the end) is not
strictly below the searched value. -/
theorem lowerBoundFrom_found (l : List NNCdata) (c : ℕ) (e : NNCdata)
    (hlt : lowerBoundFrom l c e < l.length) (hc : c ≤ l.length) :
    nncLess l[lowerBoundFrom l c e] e = false := by
  unfold lowerBoundFrom at hlt ⊢
  have hfi : (l.drop c).findIdx (fun d => !nncLess d e) < (l.drop c).length := by
    rw [List.length_drop]; omega
  have h3 := @List.findIdx_getElem _ (fun d => !nncLess d e) (l.drop c) hfi
  rw [List.getElem_drop] at h3
  simp only [Bool.not_eq_true'] at h3
  exact h3

/-- The multiply loop, started at a position such that any match at or
beyond it is preceded only by matches (matches at or after `c` form a
contiguous run starting at `c`), multiplies exactly the matching entries of
the tail: its result is the untouched prefix plus the spec map of the tail. -/
theorem applyRun_fst (e : NNCdata) :
    ∀ (n : ℕ) (l : List NNCdata) (c : ℕ), l.length - c ≤ n →
      (∀ i (hi : i < l.length), c ≤ i → pairEq e l[i] = true →
        ∀ j (hj : j < l.length), c ≤ j → j ≤ i → pairEq e l[j] = true) →
      (applyRun l e c).1 = l.take c ++ applyEditsSpec [e] (l.drop c) := by
  intro n
  induction n with
  | zero =>
    intro l c hn _hclosed
    rw [applyRun, dif_neg (by omega)]
    rw [List.drop_eq_nil_of_le (by omega), List.take_of_length_le (by omega)]
    simp [applyEditsSpec]
  | succ n ih =>
    intro l c hn hclosed
    by_cases hc : c < l.length
    · rw [applyRun, dif_pos hc]
      by_cases hm : pairEq e (l.get ⟨c, hc⟩) = true
      · rw [if_pos hm]
        have hset :
            (l.set c { l.get ⟨c, hc⟩ with
                trans := (l.get ⟨c, hc⟩).trans * e.trans }).length = l.length := by
          rw [List.length_set]
        have hrec := ih
          (l.set c { l.get ⟨c, hc⟩ with
            trans := (l.get ⟨c, hc⟩).trans * e.trans }) (c + 1)
          (by rw [hset]; omega) ?_
        · rw [hrec]
          rw [List.drop_set_of_lt _ _ (by omega)]
          rw [List.set_eq_take_append_cons_drop, if_pos hc,
            List.take_append_eq_append_take,
            List.take_of_length_le (by rw [List.length_take]; omega)]
          have hlt : (List.take c l).length = c := by
            rw [List.length_take]; omega
          rw [hlt]
          have h1 : c + 1 - c = 1 := by omega
          rw [h1]
          rw [List.drop_eq_getElem_cons hc]
          unfold applyEditsSpec
          rw [List.map_cons]
          have hep : editProd [e] l[c] = e.trans := by
            rw [editProd_cons, editProd_nil, mul_one,
              if_pos (show pairEq e l[c] = true from hm)]
          rw [hep]
          simp only [List.take_succ_cons, List.take_zero, List.append_assoc,
            List.cons_append, List.nil_append, List.get_eq_getElem]
        · intro i hi hci hmi j hj hcj hji
          have hine : c ≠ i := by omega
          have hjne : c ≠ j := by omega
          rw [List.getElem_set_ne hine] at hmi
          rw [List.getElem_set_ne hjne]
          have hi' : i < l.length := by rw [hset] at hi; exact hi
          have hj' : j < l.length := by rw [hset] at hj; exact hj
          exact hclosed i hi' (by omega) hmi j hj' (by omega) hji
      · rw [if_neg hm]
        have hnom : ∀ d ∈ l.drop c, pairEq e d = false := by
          intro d hd
          rw [List.mem_iff_getElem] at hd
          obtain ⟨k, hk, hdk⟩ := hd
          rw [List.getElem_drop] at hdk
          by_contra hcon
          rw [Bool.not_eq_false] at hcon
          have hck : c + k < l.length := by
            rw [List.length_drop] at hk; omega
          have := hclosed (c + k) hck (by omega) (by rw [hdk]; exact hcon)
            c hc (by omega) (by omega)
          exact hm this
        rw [applyEditsSpec_single_of_no_match e _ hnom, List.take_append_drop]
    · rw [applyRun, dif_neg hc]
      rw [List.drop_eq_nil_of_le (by omega), List.take_of_length_le (by omega)]
      simp [applyEditsSpec]

theorem pairEq_false_of_nncLess (d e : NNCdata) (h : nncLess d e = true) :
    pairEq e d = false := by
  rw [nncLess_iff] at h
  rw [← Bool.not_eq_true, pairEq_iff]
  omega

/-- Splitting the spec map at a position below which nothing matches. -/
theorem applyEditsSpec_split (e : NNCdata) (l : List NNCdata) (c1 : ℕ)
    (h : ∀ i (hi : i < l.length), i < c1 → pairEq e l[i] = false) :
    applyEditsSpec [e] l = l.take c1 ++ applyEditsSpec [e] (l.drop c1) := by
  conv_lhs => rw [← List.take_append_drop c1 l]
  unfold applyEditsSpec
  rw [List.map_append]
  congr 1
  rw [List.map_congr_left, List.map_id]
  intro d hd
  rw [List.mem_take_iff_getElem] at hd
  obtain ⟨i, hi, hdi⟩ := hd
  have hil : i < l.length := lt_of_lt_of_le hi (min_le_right _ _)
  have hic : i < c1 := lt_of_lt_of_le hi (min_le_left _ _)
  rw [editProd_cons, editProd_nil, mul_one, ← hdi]
  simp only [h i hil hic, Bool.false_eq_true, if_false, mul_one]
  rfl


theorem nncLe_refl (d : NNCdata) : nncLe d d := by
  rw [nncLe_iff]
  omega

/-- If every entry is strictly below `e`, the single-edit spec map does
nothing. -/
theorem applyEditsSpec_id_of_lt (e : NNCdata) (l : List NNCdata)
    (h : ∀ i (hi : i < l.length), nncLess l[i] e = true) :
    applyEditsSpec [e] l = l := by
  apply applyEditsSpec_single_of_no_match
  intro d hd
  rw [List.mem_iff_getElem] at hd
  obtain ⟨i, hi, hdi⟩ := hd
  rw [← hdi]
  exact pairEq_false_of_nncLess _ _ (h i hi)

/-- In a sorted list, from a position that is not strictly below `e`, the
matches at or beyond that position form a contiguous run starting there. -/
theorem run_closed_of_sorted (l : List NNCdata) (c1 : ℕ) (e : NNCdata)
    (hsort : List.Pairwise nncLe l)
    (hC : ∀ hlt : c1 < l.length, nncLess l[c1] e = false) :
    ∀ i (hi : i < l.length), c1 ≤ i → pairEq e l[i] = true →
      ∀ j (hj : j < l.length), c1 ≤ j → j ≤ i → pairEq e l[j] = true := by
  intro i hi hc1i hmi j hj hc1j hji
  have hie := (pairEq_iff _ _).mp hmi
  have hc1lt : c1 < l.length := by omega
  have h1 := hC hc1lt
  rw [nncLess_eq_false_iff] at h1
  have hgets := List.pairwise_iff_get.mp hsort
  have h2 : nncLe l[c1] l[j] := by
    rcases Nat.eq_or_lt_of_le hc1j with heq | hlt2
    · subst heq; exact nncLe_refl _
    · have hg := hgets ⟨c1, hc1lt⟩ ⟨j, hj⟩ hlt2
      simpa only [List.get_eq_getElem] using hg
  have h3 : nncLe l[j] l[i] := by
    rcases Nat.eq_or_lt_of_le hji with heq | hlt3
    · subst heq; exact nncLe_refl _
    · have hg := hgets ⟨j, hj⟩ ⟨i, hi⟩ hlt3
      simpa only [List.get_eq_getElem] using hg
  rw [nncLe_iff] at h2 h3
  rw [pairEq_iff]
  omega

/-- From a lower-bound-style position (prefix strictly below `e`, entry at
the position not strictly below `e`) the multiply loop computes exactly the
single-edit spec map. -/
theorem applyRun_spec (l : List NNCdata) (c1 : ℕ) (e : NNCdata)
    (hsort : List.Pairwise nncLe l)
    (hc1 : c1 ≤ l.length)
    (hB : ∀ i (hi : i < l.length), i < c1 → nncLess l[i] e = true)
    (hC : ∀ hlt : c1 < l.length, nncLess l[c1] e = false) :
    (applyRun l e c1).1 = applyEditsSpec [e] l := by
  rw [applyRun_fst e l.length l c1 (by omega)
    (run_closed_of_sorted l c1 e hsort hC)]
  exact (applyEditsSpec_split e l c1
    (fun i hi hic => pairEq_false_of_nncLess _ _ (hB i hi hic))).symm

/-- One iteration of the edit loop with logging on: from a sorted list and
a cursor whose prefix is strictly below the edit value, the step returns
the single-edit spec map of the list together with a cursor bounded by the
length whose prefix is still strictly below the edit value. -/
theorem editStep_spec (l : List NNCdata) (c : ℕ) (e : NNCdata)
    (hsort : List.Pairwise nncLe l)
    (hc : c ≤ l.length)
    (hpre : ∀ i (hi : i < l.length), i < c → nncLess l[i] e = true) :
    ∃ c', editStep true l c e = some (applyEditsSpec [e] l, c') ∧
      c' ≤ l.length ∧
      ∀ i (hi : i < l.length), i < c' → nncLess l[i] e = true := by
  by_cases hend : c = l.length
  · refine ⟨c, ?_, by omega, hpre⟩
    rw [editStep, if_pos ⟨hend, by trivial⟩]
    rw [applyEditsSpec_id_of_lt e l (fun i hi => hpre i hi (by omega))]
  · have hclen : c < l.length := by omega
    rw [editStep, if_neg (fun hcon => hend hcon.1),
      List.getElem?_eq_getElem hclen]
    simp only
    by_cases hm : pairEq e l[c] = true
    · rw [if_pos hm]
      have hC : ∀ hlt : c < l.length, nncLess l[c] e = false := by
        intro hlt
        rw [pairEq_iff] at hm
        rw [← Bool.not_eq_true, nncLess_iff]
        omega
      refine ⟨c, ?_, by omega, hpre⟩
      rw [if_neg (fun hcon => hend hcon.1)]
      rw [applyRun_spec l c e hsort (by omega) hpre hC]
    · rw [if_neg hm]
      have hB : ∀ i (hi : i < l.length), i < lowerBoundFrom l c e →
          nncLess l[i] e = true := by
        intro i hi hic1
        by_cases hcomp : i < c
        · exact hpre i hi hcomp
        · exact lowerBoundFrom_scanned l c e i (by omega) hic1 hi
      have hlen1 := lowerBoundFrom_le_length l c e (by omega)
      refine ⟨lowerBoundFrom l c e, ?_, hlen1, hB⟩
      by_cases hfin : lowerBoundFrom l c e = l.length
      · rw [if_pos ⟨hfin, by trivial⟩]
        rw [applyEditsSpec_id_of_lt e l (fun i hi => hB i hi (by omega))]
      · rw [if_neg (fun hcon => hfin hcon.1)]
        rw [applyRun_spec l (lowerBoundFrom l c e) e hsort hlen1 hB
          (fun hlt => lowerBoundFrom_found l c e hlt (by omega))]



theorem nncLess_of_less_le (a b c : NNCdata) (h1 : nncLess a b = true)
    (h2 : nncLe b c) : nncLess a c = true := by
  rw [nncLess_iff] at h1 ⊢
  rw [nncLe_iff] at h2
  omega

/-- The whole edit loop with logging on: on a sorted list, with edits
sorted in the same order and a cursor whose prefix is strictly below every
remaining edit, the fold applies every matching edit to every entry. -/
theorem editLoop_spec :
    ∀ (edits : List NNCdata) (l : List NNCdata) (c : ℕ),
      List.Pairwise nncLe l →
      List.Pairwise nncLe edits →
      c ≤ l.length →
      (∀ i (hi : i < l.length), i < c → ∀ e ∈ edits, nncLess l[i] e = true) →
      ∃ c', List.foldl (fun st e => st.bind fun p => editStep true p.1 p.2 e)
          (some (l, c)) edits = some (applyEditsSpec edits l, c') := by
  intro edits
  induction edits with
  | nil =>
    intro l c _ _ _ _
    exact ⟨c, by rw [List.foldl_nil, applyEditsSpec_nil]⟩
  | cons e rest ih =>
    intro l c hsortl hsortE hc hpre
    rw [List.foldl_cons]
    obtain ⟨c', hstep, hc'len, hc'pre⟩ := editStep_spec l c e hsortl hc
      (fun i hi hic => hpre i hi hic e (List.mem_cons_self e rest))
    have hbind : (some (l, c)).bind (fun p => editStep true p.1 p.2 e) =
        some (applyEditsSpec [e] l, c') := hstep
    rw [hbind]
    have hEc := List.pairwise_cons.mp hsortE
    have hpre' : ∀ i (hi : i < (applyEditsSpec [e] l).length), i < c' →
        ∀ e' ∈ rest, nncLess (applyEditsSpec [e] l)[i] e' = true := by
      intro i hi hic e' he'
      have hil : i < l.length := by
        rw [applyEditsSpec_length] at hi; exact hi
      have hgi : (applyEditsSpec [e] l)[i] =
          { l[i] with trans := l[i].trans * editProd [e] l[i] } :=
        applyEditsSpec_getElem [e] l i hil hi
      rw [hgi, nncLess_trans_update_left]
      exact nncLess_of_less_le _ _ _ (hc'pre i hil hic) (hEc.1 e' he')
    obtain ⟨c'', hrest⟩ := ih (applyEditsSpec [e] l) c'
      (applyEditsSpec_pairwise [e] l hsortl) hEc.2
      (by rw [applyEditsSpec_length]; exact hc'len) hpre'
    exact ⟨c'', by rw [hrest, ← applyEditsSpec_cons]⟩

/-- C10 amended: with `log = true` and the EDITNNC entries sorted in the
same (cell1, cell2) lexicographic order as the sorter uses, the function
completes and returns the NNC entries sorted lexicographically — a
permutation of the input — with each entry's `trans` multiplied by the
`trans` of every matching edit (once per matching edit occurrence) and its
cells unchanged. -/
theorem sortNncAndApplyEditnnc_correct (nncData editnncData : List NNCdata)
    (hsorted : List.Pairwise nncLe editnncData) :
    ∃ s, s.Perm nncData ∧ List.Pairwise nncLe s ∧
      sortNncAndApplyEditnnc nncData editnncData true =
        some (applyEditsSpec editnncData s) := by
  refine ⟨List.insertionSort nncLe nncData, List.perm_insertionSort _ _,
    List.sorted_insertionSort nncLe nncData, ?_⟩
  unfold sortNncAndApplyEditnnc
  obtain ⟨c', hloop⟩ := editLoop_spec editnncData
    (List.insertionSort nncLe nncData) 0
    (List.sorted_insertionSort nncLe nncData) hsorted (Nat.zero_le _)
    (fun i _hi hic => absurd hic (Nat.not_lt_zero i))
  simp only [hloop, Option.map_some']

/-- Witness for C10 (amended) on a concrete two-entry NNC list and one
matching edit. -/
theorem sortNncAndApplyEditnnc_correct_witness :
    List.Pairwise nncLe ([⟨1, 1, 5⟩] : List NNCdata) ∧
      ∃ s, s.Perm ([⟨2, 2, 3⟩, ⟨1, 1, 2⟩] : List NNCdata) ∧
        List.Pairwise nncLe s ∧
        sortNncAndApplyEditnnc [⟨2, 2, 3⟩, ⟨1, 1, 2⟩] [⟨1, 1, 5⟩] true =
          some (applyEditsSpec [⟨1, 1, 5⟩] s) :=
  ⟨by decide, sortNncAndApplyEditnnc_correct _ _ (by decide)⟩

/-- C10 counterexample: with the edit list out of (cell1, cell2) order —
edits `[(2,2), (1,1)]` — the run returns `some [⟨1,1,1⟩, ⟨2,2,5⟩]`: the
`(1,1)` edit is silently skipped because `lower_bound` only searches from
the current candidate onward, so no sorted permutation `s` of the input
satisfies the claimed postcondition `result = applyEditsSpec edits s`
(the claimed output would multiply the `(1,1)` entry's trans by 7). -/
theorem sortNncAndApplyEditnnc_unsorted_cex :
    sortNncAndApplyEditnnc [⟨1, 1, 1⟩, ⟨2, 2, 1⟩] [⟨2, 2, 5⟩, ⟨1, 1, 7⟩] true =
        some [⟨1, 1, 1⟩, ⟨2, 2, 5⟩] ∧
      ∀ s : List NNCdata, s.Perm [⟨1, 1, 1⟩, ⟨2, 2, 1⟩] →
        applyEditsSpec [⟨2, 2, 5⟩, ⟨1, 1, 7⟩] s ≠ [⟨1, 1, 1⟩, ⟨2, 2, 5⟩] := by
  constructor
  · have hsort : List.insertionSort nncLe [⟨1, 1, 1⟩, ⟨2, 2, 1⟩] =
        ([⟨1, 1, 1⟩, ⟨2, 2, 1⟩] : List NNCdata) := by
      norm_num [List.insertionSort, List.orderedInsert, nncLe, nncLess]
    have h2 : editStep true ([⟨1, 1, 1⟩, ⟨2, 2, 1⟩] : List NNCdata) 0 ⟨2, 2, 5⟩ =
        some ([⟨1, 1, 1⟩, ⟨2, 2, 5⟩], 1) := by
      rw [editStep]
      norm_num [pairEq, lowerBoundFrom, List.findIdx, List.findIdx.go, nncLess]
      rw [applyRun]
      norm_num [pairEq]
      rw [applyRun]
      norm_num
    have h3 : editStep true ([⟨1, 1, 1⟩, ⟨2, 2, 5⟩] : List NNCdata) 1 ⟨1, 1, 7⟩ =
        some ([⟨1, 1, 1⟩, ⟨2, 2, 5⟩], 1) := by
      rw [editStep]
      norm_num [pairEq, lowerBoundFrom, List.findIdx, List.findIdx.go, nncLess]
      rw [applyRun]
      norm_num [pairEq]
    unfold sortNncAndApplyEditnnc
    simp only [hsort, List.foldl_cons, List.foldl_nil, Option.some_bind,
      h2, h3, Option.map_some']
  · intro s hperm heq
    have hmem : (⟨1, 1, 1⟩ : NNCdata) ∈
        applyEditsSpec [⟨2, 2, 5⟩, ⟨1, 1, 7⟩] s := by
      rw [heq]
      exact List.mem_cons_self _ _
    unfold applyEditsSpec at hmem
    rw [List.mem_map] at hmem
    obtain ⟨d, hd, hde⟩ := hmem
    have hd' : d ∈ ([⟨1, 1, 1⟩, ⟨2, 2, 1⟩] : List NNCdata) := hperm.subset hd
    rcases List.mem_cons.mp hd' with h1 | h1
    · subst h1
      have hep : editProd [⟨2, 2, 5⟩, ⟨1, 1, 7⟩] (⟨1, 1, 1⟩ : NNCdata) = 7 := by
        rw [editProd_cons, editProd_cons, editProd_nil,
          if_neg (by decide), if_pos (by decide)]
        norm_num
      rw [hep] at hde
      have htr := congrArg NNCdata.trans hde
      norm_num at htr
    · rcases List.mem_cons.mp h1 with h2 | h2
      · subst h2
        have hc1 := congrArg NNCdata.cell1 hde
        norm_num at hc1
      · simp at h2

/-- C9: the failing input — an empty NNC list (any list all of whose
entries are below some edit also works), one EDITNNC entry, and
`log = false`.  The guard `if (candidate == nncData.end() && log)` does
not skip the edit when `log` is false, so line 58 dereferences the
past-the-end iterator; the embedding signals this undefined access with
`none`. -/
theorem sortNncAndApplyEditnnc_oob :
    sortNncAndApplyEditnnc [] [⟨1, 1, 2⟩] false = none := by
  rfl

end Ewoms

namespace OpmBda

theorem PermOn.refl {β : Type} (f : ℤ → ℤ × β) (a b : ℤ) : PermOn f f a b :=
  ⟨Equiv.refl ℤ, fun _ _ => rfl, fun _ => rfl⟩

theorem PermOn.weaken {β : Type} {f g : ℤ → ℤ × β} {a b a' b' : ℤ}
    (h : PermOn f g a b) (ha : a' ≤ a) (hb : b ≤ b') : PermOn f g a' b' := by
  obtain ⟨π, hfix, hval⟩ := h
  exact ⟨π, fun k hk => hfix k (by omega), hval⟩

theorem PermOn.comp {β : Type} {f g h : ℤ → ℤ × β} {a b : ℤ}
    (h1 : PermOn f g a b) (h2 : PermOn g h a b) : PermOn f h a b := by
  obtain ⟨π1, hfix1, hval1⟩ := h1
  obtain ⟨π2, hfix2, hval2⟩ := h2
  refine ⟨π2.trans π1, fun k hk => ?_, fun k => ?_⟩
  · show π1 (π2 k) = k
    rw [hfix2 k hk, hfix1 k hk]
  · show h k = f (π1 (π2 k))
    rw [hval2 k, hval1 (π2 k)]

theorem PermOn.swap {β : Type} (f : ℤ → ℤ × β) {a b : ℤ} (i j : ℤ)
    (hia : a ≤ i) (hib : i ≤ b) (hja : a ≤ j) (hjb : j ≤ b) :
    PermOn f (swapEntries f i j) a b := by
  refine ⟨Equiv.swap i j, fun k hk => ?_, fun k => ?_⟩
  · exact Equiv.swap_apply_of_ne_of_ne (by omega) (by omega)
  · unfold swapEntries
    rcases eq_or_ne k i with hki | hki
    · rw [if_pos hki, hki, Equiv.swap_apply_left]
    · rcases eq_or_ne k j with hkj | hkj
      · rw [if_neg hki, if_pos hkj, hkj, Equiv.swap_apply_right]
      · rw [if_neg hki, if_neg hkj, Equiv.swap_apply_of_ne_of_ne hki hkj]

theorem PermOn.outside {β : Type} {f g : ℤ → ℤ × β} {a b : ℤ}
    (h : PermOn f g a b) (k : ℤ) (hk : k < a ∨ b < k) : g k = f k := by
  obtain ⟨π, hfix, hval⟩ := h
  rw [hval k, hfix k hk]

/-- A permutation of `ℤ` fixing everything outside `[a, b]` maps the
window into itself. -/
theorem permWindow_mem {a b : ℤ}
    (π : Equiv.Perm ℤ) (hfix : ∀ k, k < a ∨ b < k → π k = k)
    (k : ℤ) (hk : a ≤ k ∧ k ≤ b) : a ≤ π k ∧ π k ≤ b := by
  by_contra hcon
  have hout : π k < a ∨ b < π k := by omega
  have h2 := hfix (π k) hout
  have h3 : π k = k := π.injective h2
  omega

/-- The number of window positions whose entry satisfies `P` is preserved
by a window permutation. -/
theorem PermOn.filter_card {β : Type} {f g : ℤ → ℤ × β} {a b : ℤ}
    (h : PermOn f g a b) (P : ℤ × β → Prop) [DecidablePred P] :
    ((Finset.Icc a b).filter (fun k => P (g k))).card =
      ((Finset.Icc a b).filter (fun k => P (f k))).card := by
  obtain ⟨π, hfix, hval⟩ := h
  apply Finset.card_bij (fun k _ => π k)
  · intro k hk
    rw [Finset.mem_filter] at hk ⊢
    rw [Finset.mem_Icc] at hk ⊢
    obtain ⟨hk1, hk2⟩ := hk
    refine ⟨permWindow_mem π hfix k hk1, ?_⟩
    rw [← hval k]
    exact hk2
  · intro k1 hk1 k2 hk2 heq
    exact π.injective heq
  · intro k' hk'
    rw [Finset.mem_filter, Finset.mem_Icc] at hk'
    obtain ⟨hk1, hk2⟩ := hk'
    have hsymmfix : ∀ k, k < a ∨ b < k → π.symm k = k := by
      intro k hk
      have := hfix k hk
      conv_lhs => rw [← this]
      exact π.symm_apply_apply k
    have hmem := permWindow_mem π.symm hsymmfix k' hk1
    refine ⟨π.symm k', ?_, ?_⟩
    · rw [Finset.mem_filter, Finset.mem_Icc]
      refine ⟨hmem, ?_⟩
      rw [hval (π.symm k'), π.apply_symm_apply]
      exact hk2
    · exact π.apply_symm_apply k'

/-- Distinctness of the columns over the window is preserved by a window
permutation. -/
theorem PermOn.injOn_cols {β : Type} {f g : ℤ → ℤ × β} {a b : ℤ}
    (h : PermOn f g a b)
    (hf : ∀ i j, a ≤ i → i ≤ b → a ≤ j → j ≤ b → (f i).1 = (f j).1 → i = j) :
    ∀ i j, a ≤ i → i ≤ b → a ≤ j → j ≤ b → (g i).1 = (g j).1 → i = j := by
  obtain ⟨π, hfix, hval⟩ := h
  intro i j hia hib hja hjb heq
  rw [hval i, hval j] at heq
  have hi := permWindow_mem π hfix i ⟨hia, hib⟩
  have hj := permWindow_mem π hfix j ⟨hja, hjb⟩
  exact π.injective (hf (π i) (π j) hi.1 hi.2 hj.1 hj.2 heq)

/-- The left scan stops within the bound `B` whenever some position in
`[l, B]` carries a column `≥ middle` (the sentinel), every scanned position
carries a column `< middle`, and the stop position carries one `≥ middle`. -/
theorem scanL_spec {β : Type} (f : ℤ → ℤ × β) (middle : ℤ) :
    ∀ (fuel : ℕ) (l B : ℤ), (∃ i, l ≤ i ∧ i ≤ B ∧ middle ≤ (f i).1) →
      (B - l).toNat < fuel →
      ∃ l1, scanL f middle fuel l = some l1 ∧ l ≤ l1 ∧ l1 ≤ B ∧
        middle ≤ (f l1).1 ∧ ∀ i, l ≤ i → i < l1 → (f i).1 < middle := by
  intro fuel
  induction fuel with
  | zero => intro l B hsent hfuel; omega
  | succ n ih =>
    intro l B hsent hfuel
    obtain ⟨s, hs1, hs2, hs3⟩ := hsent
    rw [scanL]
    by_cases hl : (f l).1 < middle
    · rw [if_pos hl]
      have hsl : l ≠ s := by
        intro heq
        rw [← heq] at hs3
        omega
      have hrec := ih (l + 1) B ⟨s, by omega, hs2, hs3⟩ (by omega)
      obtain ⟨l1, heq, h1, h2, h3, h4⟩ := hrec
      refine ⟨l1, heq, by omega, h2, h3, ?_⟩
      intro i hi1 hi2
      rcases eq_or_ne i l with heq2 | hne
      · rw [heq2]; exact hl
      · exact h4 i (by omega) hi2
    · rw [if_neg hl]
      exact ⟨l, rfl, le_refl l, by omega, by omega, fun i h1 h2 => by omega⟩

/-- The right scan, symmetrically. -/
theorem scanR_spec {β : Type} (f : ℤ → ℤ × β) (middle : ℤ) :
    ∀ (fuel : ℕ) (r A : ℤ), (∃ i, A ≤ i ∧ i ≤ r ∧ (f i).1 ≤ middle) →
      (r - A).toNat < fuel →
      ∃ r1, scanR f middle fuel r = some r1 ∧ A ≤ r1 ∧ r1 ≤ r ∧
        (f r1).1 ≤ middle ∧ ∀ i, r1 < i → i ≤ r → middle < (f i).1 := by
  intro fuel
  induction fuel with
  | zero => intro r A hsent hfuel; omega
  | succ n ih =>
    intro r A hsent hfuel
    obtain ⟨s, hs1, hs2, hs3⟩ := hsent
    rw [scanR]
    by_cases hr : middle < (f r).1
    · rw [if_pos hr]
      have hsr : r ≠ s := by
        intro heq
        rw [← heq] at hs3
        omega
      have hrec := ih (r - 1) A ⟨s, hs1, by omega, hs3⟩ (by omega)
      obtain ⟨r1, heq, h1, h2, h3, h4⟩ := hrec
      refine ⟨r1, heq, h1, by omega, h3, ?_⟩
      intro i hi1 hi2
      rcases eq_or_ne i r with heq2 | hne
      · rw [heq2]; exact hr
      · exact h4 i hi1 (by omega)
    · rw [if_neg hr]
      exact ⟨r, rfl, by omega, le_refl r, by omega, fun i h1 h2 => by omega⟩

/-- The partition do-while loop: under the two sentinel conditions it
returns within fuel; the result is a window permutation of the input whose
final cursors satisfy the Hoare-partition bounds, everything left of the
final `l` is `≤ middle`, and everything right of the final `r` is
`≥ middle`.  The last component relates the result to the first
iteration's scan stops: if they did not cross, the cursors strictly passed
them. -/
theorem partitionLoop_spec {β : Type} (middle : ℤ) :
    ∀ (fuel : ℕ) (f : ℤ → ℤ × β) (l r : ℤ),
      l ≤ r →
      (∃ i, l ≤ i ∧ i ≤ r + 1 ∧ middle ≤ (f i).1) →
      (∃ i, l - 1 ≤ i ∧ i ≤ r ∧ (f i).1 ≤ middle) →
      (r - l).toNat < fuel →
      ∃ f' l' r', partitionLoop middle fuel f l r = some (f', l', r') ∧
        PermOn f f' l r ∧
        l ≤ l' ∧ l' ≤ r + 1 ∧ l - 1 ≤ r' ∧ r' ≤ r ∧
        r' ≤ l' ∧ l' ≤ r' + 2 ∧
        (∀ i, l ≤ i → i < l' → (f' i).1 ≤ middle) ∧
        (∀ i, r' < i → i ≤ r → middle ≤ (f' i).1) ∧
        (∀ l1 r1, scanL f middle ((r - l).toNat + 2) l = some l1 →
          scanR f middle ((r - l).toNat + 2) r = some r1 →
          l1 ≤ r1 → l1 + 1 ≤ l' ∧ r' ≤ r1 - 1) := by
  intro fuel
  induction fuel with
  | zero => intro f l r hlr _ _ hfuel; omega
  | succ n ih =>
    intro f l r hlr hSL hSR hfuel
    rw [partitionLoop]
    obtain ⟨l1, heqL, hll1, hl1B, hl1ge, hscanL⟩ :=
      scanL_spec f middle ((r - l).toNat + 2) l (r + 1) hSL (by omega)
    obtain ⟨r1, heqR, hr1A, hr1r, hr1le, hscanR⟩ :=
      scanR_spec f middle ((r - l).toNat + 2) r (l - 1) hSR (by omega)
    rw [heqL, heqR]
    dsimp only
    by_cases hswap : l1 ≤ r1
    · rw [if_pos hswap]
      have hl1r : l1 ≤ r := by omega
      have hlr1 : l ≤ r1 := by omega
      have hperm : PermOn f (swapEntries f l1 r1) l r :=
        PermOn.swap f l1 r1 hll1 hl1r hlr1 hr1r
      have hswL : ∀ i, l ≤ i → i ≤ l1 → (swapEntries f l1 r1 i).1 ≤ middle := by
        intro i h1 h2
        unfold swapEntries
        rcases eq_or_ne i l1 with he1 | he1
        · rw [if_pos he1]; exact hr1le
        · have h3 : i < l1 := by omega
          have h4 : i ≠ r1 := by omega
          rw [if_neg he1, if_neg h4]
          exact le_of_lt (hscanL i h1 h3)
      have hswR : ∀ i, r1 - 1 < i → i ≤ r → middle ≤ (swapEntries f l1 r1 i).1 := by
        intro i h1 h2
        unfold swapEntries
        rcases eq_or_ne i r1 with he1 | he1
        · have h4 : i ≠ l1 ∨ l1 = r1 := by omega
          rcases eq_or_ne i l1 with he2 | he2
          · rw [if_pos he2]
            have he3 : l1 = r1 := by omega
            rw [← he3]
            exact hl1ge
          · rw [if_neg he2, if_pos he1]; exact hl1ge
        · have h3 : r1 < i := by omega
          have h4 : i ≠ l1 := by omega
          rw [if_neg h4, if_neg he1]
          exact le_of_lt (hscanR i h3 h2)
      by_cases hloop : l1 + 1 < r1 - 1
      · rw [if_pos hloop]
        obtain ⟨f2, l2, r2, heq2, hperm2, hb1, hb2, hb3, hb4, hb5, hb6, hreg1,
            hreg2, _hscans⟩ :=
          ih (swapEntries f l1 r1) (l1 + 1) (r1 - 1) (by omega)
            ⟨r1, by omega, by omega, by
              show middle ≤ (swapEntries f l1 r1 r1).1
              unfold swapEntries
              rcases eq_or_ne r1 l1 with he | he
              · rw [if_pos he, he]; exact hl1ge
              · rw [if_neg he, if_pos rfl]; exact hl1ge⟩
            ⟨l1, by omega, by omega, by
              show (swapEntries f l1 r1 l1).1 ≤ middle
              unfold swapEntries
              rw [if_pos rfl]; exact hr1le⟩
            (by omega)
        refine ⟨f2, l2, r2, heq2,
          hperm.comp (hperm2.weaken (by omega) (by omega)),
          by omega, by omega, by omega, by omega, by omega, by omega,
          ?_, ?_, ?_⟩
        · intro i h1 h2
          rcases lt_or_le i (l1 + 1) with hc | hc
          · rw [hperm2.outside i (by omega)]
            exact hswL i h1 (by omega)
          · exact hreg1 i hc h2
        · intro i h1 h2
          rcases le_or_lt i (r1 - 1) with hc | hc
          · exact hreg2 i h1 hc
          · rw [hperm2.outside i (by omega)]
            exact hswR i (by omega) h2
        · intro l1' r1' heqL' heqR' _hcross
          have hinj1 := Option.some.inj heqL'
          have hinj2 := Option.some.inj heqR'
          omega
      · rw [if_neg hloop]
        refine ⟨swapEntries f l1 r1, l1 + 1, r1 - 1, rfl, hperm,
          by omega, by omega, by omega, by omega, by omega, by omega,
          ?_, ?_, ?_⟩
        · intro i h1 h2
          exact hswL i h1 (by omega)
        · intro i h1 h2
          exact hswR i h1 h2
        · intro l1' r1' heqL' heqR' _hcross
          have hinj1 := Option.some.inj heqL'
          have hinj2 := Option.some.inj heqR'
          omega
    · rw [if_neg hswap]
      have hgap : l1 ≤ r1 + 1 := by
        by_contra hcon
        have h1 : l ≤ r1 + 1 := by omega
        have h2 : r1 + 1 ≤ r := by omega
        have h3 := hscanL (r1 + 1) h1 (by omega)
        have h4 := hscanR (r1 + 1) (by omega) h2
        omega
      refine ⟨f, l1, r1, rfl, PermOn.refl f l r,
        hll1, hl1B, hr1A, hr1r, by omega, by omega, ?_, ?_, ?_⟩
      · intro i h1 h2
        exact le_of_lt (hscanL i h1 h2)
      · intro i h1 h2
        exact le_of_lt (hscanR i h1 h2)
      · intro l1' r1' heqL' heqR' hcross
        have hinj1 := Option.some.inj heqL'
        have hinj2 := Option.some.inj heqR'
        omega

/-- After the partition, every position of `[left, l')` in the left-sorted
array holds a column `≤ middle` — in the overlap case (`l' = r'`) the one
possibly-large value is pushed to the top position by the sort, which is a
counting argument on the window permutation. -/
theorem glue_left_le {β : Type} (m : ℤ) (f1 g : ℤ → ℤ × β)
    (left l' r' : ℤ)
    (hb5 : r' ≤ l') (hb6 : l' ≤ r' + 2)
    (hreg1 : ∀ i, left ≤ i → i < l' → (f1 i).1 ≤ m)
    (hpg : PermOn f1 g left r')
    (hgs : ∀ i j, left ≤ i → i < j → j ≤ r' → (g i).1 < (g j).1) :
    ∀ k, left ≤ k → k < l' → (g k).1 ≤ m := by
  intro k hk1 hk2
  obtain ⟨πg, hfixg, hvalg⟩ := hpg
  rcases le_or_lt k r' with hkr | hkr
  · have hmem := permWindow_mem πg hfixg k ⟨hk1, hkr⟩
    rcases lt_or_le (πg k) l' with hql | hql
    · rw [hvalg k]
      exact hreg1 (πg k) hmem.1 hql
    · have hpc : l' = r' := by omega
      by_contra hcon
      push_neg at hcon
      have hpg2 : PermOn f1 g left r' := ⟨πg, hfixg, hvalg⟩
      have hcard := hpg2.filter_card (fun v => m < v.1)
      have hf1sub : ((Finset.Icc left r').filter (fun kk => m < (f1 kk).1)) ⊆
          ({r'} : Finset ℤ) := by
        intro x hx
        rw [Finset.mem_filter, Finset.mem_Icc] at hx
        rw [Finset.mem_singleton]
        by_contra hxne
        have hxl : x < l' := by omega
        have hr := hreg1 x hx.1.1 hxl
        have hx2 := hx.2
        omega
      have hf1card : ((Finset.Icc left r').filter (fun kk => m < (f1 kk).1)).card ≤ 1 := by
        have := Finset.card_le_card hf1sub
        simpa using this
      have hkgr : (g k).1 < (g r').1 := hgs k r' hk1 (by omega) (le_refl r')
      have hsub2 : ({k, r'} : Finset ℤ) ⊆
          ((Finset.Icc left r').filter (fun kk => m < (g kk).1)) := by
        intro x hx
        rw [Finset.mem_insert, Finset.mem_singleton] at hx
        rw [Finset.mem_filter, Finset.mem_Icc]
        rcases hx with hx | hx
        · rw [hx]
          exact ⟨⟨hk1, hkr⟩, hcon⟩
        · rw [hx]
          refine ⟨⟨by omega, le_refl r'⟩, by omega⟩
      have hcard2 : ({k, r'} : Finset ℤ).card = 2 := by
        rw [Finset.card_insert_of_not_mem (by simp; omega), Finset.card_singleton]
      have := Finset.card_le_card hsub2
      omega
  · have hfx : πg k = k := hfixg k (by omega)
    rw [hvalg k, hfx]
    exact hreg1 k hk1 hk2

/-- Gluing the two recursive sorts around the partition cursors yields a
strictly ascending column sequence on the whole sub-range. -/
theorem glue_sorted {β : Type} (m : ℤ) (f1 g h : ℤ → ℤ × β)
    (left right l' r' : ℤ)
    (_hbl : left < l') (hb2 : l' ≤ right + 1) (_hb3 : left - 1 ≤ r')
    (_hbr : r' < right) (hb5 : r' ≤ l') (hb6 : l' ≤ r' + 2)
    (hreg1 : ∀ i, left ≤ i → i < l' → (f1 i).1 ≤ m)
    (hreg2 : ∀ i, r' < i → i ≤ right → m ≤ (f1 i).1)
    (hpg : PermOn f1 g left r')
    (hgs : ∀ i j, left ≤ i → i < j → j ≤ r' → (g i).1 < (g j).1)
    (hph : PermOn g h l' right)
    (hhs : ∀ i j, l' ≤ i → i < j → j ≤ right → (h i).1 < (h j).1)
    (hdist : ∀ i j, left ≤ i → i ≤ right → left ≤ j → j ≤ right →
      (h i).1 = (h j).1 → i = j) :
    ∀ i j, left ≤ i → i < j → j ≤ right → (h i).1 < (h j).1 := by
  have hgLe := glue_left_le m f1 g left l' r' hb5 hb6 hreg1 hpg hgs
  have houtL : ∀ k, r' < k → g k = f1 k := fun k hk => hpg.outside k (Or.inr hk)
  have houtR : ∀ k, k < l' → h k = g k := fun k hk => hph.outside k (Or.inl hk)
  have hstrict_of_le : ∀ i j, left ≤ i → i < j → j ≤ right →
      (h i).1 ≤ (h j).1 → (h i).1 < (h j).1 := by
    intro i j h1 h2 h3 hle
    rcases lt_or_eq_of_le hle with hlt | heq
    · exact hlt
    · have := hdist i j h1 (by omega) (by omega) h3 heq
      omega
  intro i j hi hij hj
  rcases lt_or_le j l' with hjl | hjl
  · -- both indices strictly left of l': untouched by the right sort
    have hhi : h i = g i := houtR i (by omega)
    have hhj : h j = g j := houtR j hjl
    rcases le_or_lt j r' with hjr | hjr
    · rw [hhi, hhj]
      exact hgs i j hi hij hjr
    · -- j is the gap position: its value is exactly m
      have hgj : g j = f1 j := houtL j hjr
      have hji1 : (f1 j).1 ≤ m := hreg1 j (by omega) hjl
      have hji2 : m ≤ (f1 j).1 := hreg2 j hjr (by omega)
      have hgi : (g i).1 ≤ m := hgLe i hi (by omega)
      apply hstrict_of_le i j hi hij hj
      rw [hhi, hhj, hgj]
      omega
  · rcases le_or_lt l' i with hil | hil
    · exact hhs i j hil hij hj
    · -- i left of l', j at or right of l'
      have hhi : h i = g i := houtR i hil
      have hwk : (h l').1 ≤ (h j).1 := by
        rcases lt_or_eq_of_le hjl with hlt | heq
        · exact le_of_lt (hhs l' j (le_refl l') hlt hj)
        · rw [← heq]
      rcases le_or_lt i r' with hir | hir
      · -- i in the ≤ m zone of the left sort
        have hgi : (g i).1 ≤ m := hgLe i hi hil
        obtain ⟨πh, hfixh, hvalh⟩ := hph
        have hl'right : l' ≤ right := by omega
        have hqmem := permWindow_mem πh hfixh l' ⟨le_refl l', hl'right⟩
        rcases lt_or_eq_of_le hqmem.1 with hqgt | hqeq
        · -- the right sort pulled a strictly-right value to l': it is ≥ m
          have hq2 : g (πh l') = f1 (πh l') := houtL (πh l') (by omega)
          have hq3 : m ≤ (f1 (πh l')).1 := hreg2 (πh l') (by omega) hqmem.2
          apply hstrict_of_le i j hi hij hj
          have hhl' : (h l').1 = (f1 (πh l')).1 := by
            rw [hvalh l', hq2]
          rw [hhi]
          omega
        · rcases lt_or_eq_of_le hb5 with hrl | hrl
          · -- r' < l': position l' itself lies in the ≥ m zone
            have hq2 : g l' = f1 l' := houtL l' (by omega)
            have hq3 : m ≤ (f1 l').1 := hreg2 l' (by omega) hl'right
            apply hstrict_of_le i j hi hij hj
            have hhl' : (h l').1 = (f1 l').1 := by
              rw [hvalh l', ← hqeq, hq2]
            rw [hhi]
            omega
          · -- overlap l' = r': strictness comes from the left sort
            have hgil' : (g i).1 < (g l').1 := hgs i l' hi hil (by omega)
            have hhl' : (h l').1 = (g l').1 := by
              rw [hvalh l', ← hqeq]
            rw [hhi]
            omega
      · -- i is the gap position: value exactly m
        have hgi : g i = f1 i := houtL i hir
        have hi1 : (f1 i).1 ≤ m := hreg1 i hi hil
        have hi2 : m ≤ (f1 i).1 := hreg2 i hir (by omega)
        obtain ⟨πh, hfixh, hvalh⟩ := hph
        have hjmem := permWindow_mem πh hfixh j ⟨hjl, hj⟩
        have hq2 : g (πh j) = f1 (πh j) := houtL (πh j) (by omega)
        have hq3 : m ≤ (f1 (πh j)).1 := hreg2 (πh j) (by omega) hjmem.2
        apply hstrict_of_le i j hi hij hj
        have hhj : (h j).1 = (f1 (πh j)).1 := by
          rw [hvalh j, hq2]
        rw [hhi, hgi]
        omega

/-- The recursive sort: with enough fuel (one more than the sub-range
length), on a sub-range with pairwise-distinct columns it terminates with
`some`, permutes exactly the sub-range's (column, block) pairs, and leaves
the columns strictly ascending on the sub-range. -/
theorem sortBlockedRow_go {β : Type} :
    ∀ (fuel : ℕ) (f : ℤ → ℤ × β) (left right : ℤ),
      left ≤ right →
      (∀ i j, left ≤ i → i ≤ right → left ≤ j → j ≤ right →
        (f i).1 = (f j).1 → i = j) →
      (right - left).toNat < fuel →
      ∃ f', sortBlockedRow fuel f left right = some f' ∧
        PermOn f f' left right ∧
        ∀ i j, left ≤ i → i < j → j ≤ right → (f' i).1 < (f' j).1 := by
  intro fuel
  induction fuel with
  | zero => intro f left right h1 _ h3; omega
  | succ n ih =>
    intro f left right hlr hdist hfuel
    rw [sortBlockedRow]
    have hp1 : left ≤ (left + right) / 2 := by omega
    have hp2 : (left + right) / 2 ≤ right := by omega
    obtain ⟨f1, l', r', heqP, hperm1, hbL, hb2, hb3, hbR, hb5, hb6, hreg1,
        hreg2, hscans⟩ :=
      partitionLoop_spec ((f ((left + right) / 2)).1) ((right - left).toNat + 1)
        f left right hlr
        ⟨(left + right) / 2, hp1, by omega, le_refl _⟩
        ⟨(left + right) / 2, by omega, hp2, le_refl _⟩
        (by omega)
    obtain ⟨l1, heqL, hll1, hl1B, hl1ge, _hscanL⟩ :=
      scanL_spec f ((f ((left + right) / 2)).1) ((right - left).toNat + 2)
        left ((left + right) / 2)
        ⟨(left + right) / 2, hp1, le_refl _, le_refl _⟩ (by omega)
    obtain ⟨r1, heqR, hr1A, hr1r, hr1le, _hscanR⟩ :=
      scanR_spec f ((f ((left + right) / 2)).1) ((right - left).toNat + 2)
        right ((left + right) / 2)
        ⟨(left + right) / 2, le_refl _, hp2, le_refl _⟩ (by omega)
    obtain ⟨hstrL, hstrR⟩ := hscans l1 r1 heqL heqR (by omega)
    have hl'strict : left < l' := by omega
    have hr'strict : r' < right := by omega
    rw [heqP]
    dsimp only
    have hdist1 : ∀ i j, left ≤ i → i ≤ right → left ≤ j → j ≤ right →
        (f1 i).1 = (f1 j).1 → i = j := hperm1.injOn_cols hdist
    by_cases hc1 : left < r'
    · obtain ⟨g, heqG, hpermG, hsortG⟩ := ih f1 left r' (le_of_lt hc1)
        (fun i j h1 h2 h3 h4 he => hdist1 i j h1 (by omega) h3 (by omega) he)
        (by omega)
      rw [if_pos hc1, heqG]
      dsimp only
      have hdist2 : ∀ i j, left ≤ i → i ≤ right → left ≤ j → j ≤ right →
          (g i).1 = (g j).1 → i = j :=
        (hpermG.weaken (le_refl left) (by omega)).injOn_cols hdist1
      by_cases hc2 : l' < right
      · obtain ⟨h, heqH, hpermH, hsortH⟩ := ih g l' right (le_of_lt hc2)
          (fun i j h1 h2 h3 h4 he => hdist2 i j (by omega) h2 (by omega) h4 he)
          (by omega)
        rw [if_pos hc2, heqH]
        have hdist3 : ∀ i j, left ≤ i → i ≤ right → left ≤ j → j ≤ right →
            (h i).1 = (h j).1 → i = j :=
          (hpermH.weaken (by omega) (le_refl right)).injOn_cols hdist2
        refine ⟨h, rfl, ?_, ?_⟩
        · exact (hperm1.comp (hpermG.weaken (le_refl left) (by omega))).comp
            (hpermH.weaken (by omega) (le_refl right))
        · exact glue_sorted ((f ((left + right) / 2)).1) f1 g h left right l' r'
            hl'strict hb2 hb3 hr'strict hb5 hb6 hreg1 hreg2 hpermG hsortG
            hpermH hsortH hdist3
      · rw [if_neg hc2]
        refine ⟨g, rfl, ?_, ?_⟩
        · exact hperm1.comp (hpermG.weaken (le_refl left) (by omega))
        · exact glue_sorted ((f ((left + right) / 2)).1) f1 g g left right l' r'
            hl'strict hb2 hb3 hr'strict hb5 hb6 hreg1 hreg2 hpermG hsortG
            (PermOn.refl g l' right)
            (fun i j h1 h2 h3 => by omega)
            hdist2
    · rw [if_neg hc1]
      dsimp only
      have hsortG : ∀ i j, left ≤ i → i < j → j ≤ r' → (f1 i).1 < (f1 j).1 := by
        intro i j h1 h2 h3
        omega
      by_cases hc2 : l' < right
      · obtain ⟨h, heqH, hpermH, hsortH⟩ := ih f1 l' right (le_of_lt hc2)
          (fun i j h1 h2 h3 h4 he => hdist1 i j (by omega) h2 (by omega) h4 he)
          (by omega)
        rw [if_pos hc2, heqH]
        have hdist3 : ∀ i j, left ≤ i → i ≤ right → left ≤ j → j ≤ right →
            (h i).1 = (h j).1 → i = j :=
          (hpermH.weaken (by omega) (le_refl right)).injOn_cols hdist1
        refine ⟨h, rfl, ?_, ?_⟩
        · exact hperm1.comp (hpermH.weaken (by omega) (le_refl right))
        · exact glue_sorted ((f ((left + right) / 2)).1) f1 f1 h left right l' r'
            hl'strict hb2 hb3 hr'strict hb5 hb6 hreg1 hreg2
            (PermOn.refl f1 left r') hsortG hpermH hsortH hdist3
      · rw [if_neg hc2]
        refine ⟨f1, rfl, hperm1, ?_⟩
        exact glue_sorted ((f ((left + right) / 2)).1) f1 f1 f1 left right l' r'
          hl'strict hb2 hb3 hr'strict hb5 hb6 hreg1 hreg2
          (PermOn.refl f1 left r') hsortG (PermOn.refl f1 l' right)
          (fun i j h1 h2 h3 => by omega)
          hdist1

/-- C2: for every row sub-range `left ≤ right` of (column, block) pairs
with pairwise-distinct column indices, `sortBlockedRow` terminates (any
fuel exceeding the sub-range length yields `some`), and the result is a
permutation of the sub-range's (column, block) pairs — each block moved as
one pair with its column, nothing outside the sub-range touched — whose
column sequence is strictly ascending on the sub-range. -/
theorem sortBlockedRow_correct {β : Type} (f : ℤ → ℤ × β) (left right : ℤ)
    (fuel : ℕ) (hlr : left ≤ right) (hdist : (colsOn f left right).Nodup)
    (hfuel : (right - left).toNat < fuel) :
    ∃ f', sortBlockedRow fuel f left right = some f' ∧
      PermOn f f' left right ∧
      ∀ i j, left ≤ i → i < j → j ≤ right → (f' i).1 < (f' j).1 := by
  apply sortBlockedRow_go fuel f left right hlr ?_ hfuel
  intro i j h1 h2 h3 h4 heq
  have hilen : (i - left).toNat < (colsOn f left right).length := by
    unfold colsOn
    rw [List.length_map, List.length_range]
    omega
  have hjlen : (j - left).toNat < (colsOn f left right).length := by
    unfold colsOn
    rw [List.length_map, List.length_range]
    omega
  have hvi : (colsOn f left right)[(i - left).toNat] = (f i).1 := by
    unfold colsOn
    rw [List.getElem_map, List.getElem_range,
      show left + (((i - left).toNat : ℕ) : ℤ) = i by omega]
  have hvj : (colsOn f left right)[(j - left).toNat] = (f j).1 := by
    unfold colsOn
    rw [List.getElem_map, List.getElem_range,
      show left + (((j - left).toNat : ℕ) : ℤ) = j by omega]
  have hidx : (i - left).toNat = (j - left).toNat := by
    apply (List.Nodup.getElem_inj_iff hdist).mp
    rw [hvi, hvj]
    exact heq
  omega

/-- Witness for C2 on the concrete three-entry row
`[(5, 10), (3, 30), (4, 40)]` at positions 0..2 with fuel 3. -/
theorem sortBlockedRow_correct_witness :
    ((0 : ℤ) ≤ 2 ∧
      (colsOn (fun k => if k = 0 then ((5 : ℤ), (10 : ℚ))
        else if k = 1 then (3, 30) else if k = 2 then (4, 40) else (k, 0))
        0 2).Nodup ∧
      ((2 : ℤ) - 0).toNat < 3) ∧
    ∃ f', sortBlockedRow 3
        (fun k => if k = 0 then ((5 : ℤ), (10 : ℚ))
          else if k = 1 then (3, 30) else if k = 2 then (4, 40) else (k, 0))
        0 2 = some f' ∧
      PermOn (fun k => if k = 0 then ((5 : ℤ), (10 : ℚ))
        else if k = 1 then (3, 30) else if k = 2 then (4, 40) else (k, 0))
        f' 0 2 ∧
      ∀ i j, 0 ≤ i → i < j → j ≤ 2 → (f' i).1 < (f' j).1 :=
  ⟨⟨by decide, by decide, by decide⟩,
    sortBlockedRow_correct
      (fun k => if k = 0 then ((5 : ℤ), (10 : ℚ))
        else if k = 1 then (3, 30) else if k = 2 then (4, 40) else (k, 0))
      0 2 3 (by decide) (by decide) (by decide)⟩

end OpmBda
